import Mathlib

/-!
Shallow embedding of `cmd/gopherbadgeimg/main.go` (taigrr/badger2040).

The program converts an image to a 1-bit-per-pixel bitmap for a badge
display.  The decoded/resampled/dithered pixel grid is abstracted as a
function `px : Nat → Nat → Nat × Nat × Nat` giving the (r, g, b) channel
values of the pixel at column `i`, row `j` (the alpha channel is ignored
by the packer, as in the source).  File and console output is modelled
as data (a run trace), all other logic is translated function by
function from the Go source.
-/

deriving instance DecidableEq for Except

namespace Badger

/-- The packer's black test (main.go line 240): a pixel is "on" exactly
when the sum of its R, G and B channels is zero. -/
def isBlack (px : Nat → Nat → Nat × Nat × Nat) (i j : Nat) : Bool :=
  decide ((px i j).1 + (px i j).2.1 + (px i j).2.2 = 0)

/-- One bit-set operation of the packing loop (main.go line 243):
`imageBits[idx/8] = imageBits[idx/8] | (1 << uint(7-idx%8))`.
Go would panic on an out-of-range index; `List.set`/`List.getD` make the
model total (the in-bounds theorem shows the index is in range whenever
the height is divisible by 8). -/
def orBit (buf : List Nat) (idx : Nat) : List Nat :=
  buf.set (idx / 8) (buf.getD (idx / 8) 0 ||| (1 <<< (7 - idx % 8)))

/-- The body of the packing loop for pixel (column `i`, row `j`)
(main.go lines 238-244). -/
def packStep (y : Nat) (px : Nat → Nat → Nat × Nat × Nat)
    (buf : List Nat) (i j : Nat) : List Nat :=
  if isBlack px i j then orBit buf (i * y + j) else buf

/-- `ImgToBytes` (main.go lines 194-248), restricted to its packing part:
the buffer is `make([]byte, x*y/8)`, the outer loop runs over columns
`i < x`, the inner loop over rows `j < y`.  The resize/dither steps are
abstracted into the pixel function `px`. -/
def ImgToBytes (x y : Nat) (px : Nat → Nat → Nat × Nat × Nat) : List Nat :=
  (List.range x).foldl
    (fun buf i => (List.range y).foldl (fun buf j => packStep y px buf i j) buf)
    (List.replicate (x * y / 8) 0)

/-- The bit the buffer stores for flat pixel index `idx`: bit
`7 - idx % 8` of byte `idx / 8`. -/
def bufTestBit (buf : List Nat) (idx : Nat) : Bool :=
  Nat.testBit (buf.getD (idx / 8) 0) (7 - idx % 8)

/-- `PrintImg` (main.go lines 285-298) as the character grid it writes to
stderr: row `i` is printed as `x` characters, the one at column `j`
showing `*` when bit `7 - offset%8` of byte `offset/8` is set, for
`offset = j*y + i`. -/
def PrintImg (x y : Nat) (imgBits : List Nat) : List (List Char) :=
  (List.range y).map (fun i =>
    (List.range x).map (fun j =>
      if imgBits.getD ((j * y + i) / 8) 0 &&& (1 <<< (7 - (j * y + i) % 8)) ≠ 0
      then '*' else ' '))

/-- The packing loop re-indexed by the flat pixel index `idx = i*y + j`:
for `j < y` the column is `idx / y` and the row is `idx % y`. -/
def packIdx (y : Nat) (px : Nat → Nat → Nat × Nat × Nat)
    (buf : List Nat) (idx : Nat) : List Nat :=
  if isBlack px (idx / y) (idx % y) then orBit buf idx else buf

lemma getD_set_self (l : List Nat) (i v d : Nat) (h : i < l.length) :
    (l.set i v).getD i d = v := by
  simp [List.getD_eq_getElem?_getD, List.getElem?_set_self h]

lemma getD_set_ne (l : List Nat) (i j v d : Nat) (h : i ≠ j) :
    (l.set i v).getD j d = l.getD j d := by
  simp [List.getD_eq_getElem?_getD, List.getElem?_set_ne h]

lemma getD_replicate_zero (n j : Nat) : (List.replicate n 0).getD j 0 = 0 := by
  by_cases h : j < n <;>
    simp [List.getD_eq_getElem?_getD, List.getElem?_replicate, h]

lemma orBit_length (buf : List Nat) (idx : Nat) :
    (orBit buf idx).length = buf.length := by
  simp [orBit]

lemma packIdx_length (y : Nat) (px : Nat → Nat → Nat × Nat × Nat)
    (buf : List Nat) (idx : Nat) :
    (packIdx y px buf idx).length = buf.length := by
  unfold packIdx
  split
  · exact orBit_length buf idx
  · rfl

lemma foldl_packIdx_length (y : Nat) (px : Nat → Nat → Nat × Nat × Nat)
    (l : List Nat) : ∀ buf : List Nat,
    (l.foldl (packIdx y px) buf).length = buf.length := by
  induction l with
  | nil => intro buf; rfl
  | cons b l ih =>
    intro buf
    rw [List.foldl_cons, ih, packIdx_length]

/-- Effect of `orBit` on a single stored bit: it sets exactly the bit of
pixel index `k` (when byte `k / 8` is in range) and leaves every other
bit unchanged. -/
lemma bufTestBit_orBit (buf : List Nat) (k idx : Nat) :
    bufTestBit (orBit buf k) idx =
      (bufTestBit buf idx || (decide (idx = k) && decide (k / 8 < buf.length))) := by
  by_cases hlen : k / 8 < buf.length
  · by_cases hb : idx / 8 = k / 8
    · unfold bufTestBit orBit
      rw [hb, getD_set_self _ _ _ _ hlen, Nat.testBit_lor, Nat.shiftLeft_eq,
        one_mul]
      by_cases hm : idx % 8 = k % 8
      · have hik : idx = k := by omega
        subst hik
        simp [Nat.testBit_two_pow_self, hlen]
      · have hne : (7 - k % 8) ≠ (7 - idx % 8) := by omega
        have hik : idx ≠ k := by omega
        simp [Nat.testBit_two_pow_of_ne hne, hik]
    · unfold bufTestBit orBit
      rw [getD_set_ne _ _ _ _ _ (fun h => hb h.symm)]
      have hik : idx ≠ k := by omega
      simp [hik]
  · unfold orBit
    rw [List.set_eq_of_length_le (Nat.le_of_not_lt hlen)]
    simp [hlen]

lemma foldl_congr_mem {α β : Type} {f g : α → β → α} (l : List β)
    (h : ∀ b ∈ l, ∀ acc, f acc b = g acc b) : ∀ a : α, l.foldl f a = l.foldl g a := by
  induction l with
  | nil => intro a; rfl
  | cons b l ih =>
    intro a
    rw [List.foldl_cons, List.foldl_cons, h b (by simp)]
    exact ih (fun c hc acc => h c (by simp [hc]) acc) _

/-- The nested column/row loops of `ImgToBytes` equal a single fold over
the flat pixel indices `0, …, x*y - 1`. -/
lemma ImgToBytes_eq_flat (x y : Nat) (px : Nat → Nat → Nat × Nat × Nat) :
    ImgToBytes x y px =
      (List.range (x * y)).foldl (packIdx y px) (List.replicate (x * y / 8) 0) := by
  unfold ImgToBytes
  generalize List.replicate (x * y / 8) 0 = buf
  induction x generalizing buf with
  | zero => simp
  | succ x ih =>
    rw [List.range_succ, List.foldl_append, ih, Nat.succ_mul, List.range_add,
      List.foldl_append, List.foldl_map]
    simp only [List.foldl_cons, List.foldl_nil]
    refine foldl_congr_mem _ (fun j hj acc => ?_) _
    have hjy : j < y := List.mem_range.mp hj
    have hy : 0 < y := by omega
    unfold packStep packIdx
    have hdiv : (x * y + j) / y = x := by
      rw [Nat.mul_comm, Nat.mul_add_div hy, Nat.div_eq_of_lt hjy, Nat.add_zero]
    have hmod : (x * y + j) % y = j := by
      rw [Nat.mul_comm, Nat.mul_add_mod, Nat.mod_eq_of_lt hjy]
    rw [hdiv, hmod]

/-- Bit-level characterisation of a fold of `packIdx` over the pixel
indices `0, …, n-1`. -/
lemma bufTestBit_foldl_range (y : Nat) (px : Nat → Nat → Nat × Nat × Nat)
    (n : Nat) (buf : List Nat) (idx : Nat) :
    bufTestBit ((List.range n).foldl (packIdx y px) buf) idx =
      (bufTestBit buf idx ||
        (decide (idx < n) && isBlack px (idx / y) (idx % y) &&
          decide (idx / 8 < buf.length))) := by
  induction n with
  | zero => simp
  | succ n ih =>
    rw [List.range_succ, List.foldl_append]
    simp only [List.foldl_cons, List.foldl_nil]
    by_cases hb : isBlack px (n / y) (n % y) = true
    · rw [packIdx, if_pos hb, bufTestBit_orBit, foldl_packIdx_length, ih]
      by_cases hidx : idx = n
      · subst hidx
        simp [hb]
      · have h1 : decide (idx < n + 1) = decide (idx < n) := by
          simp only [decide_eq_decide]; omega
        simp [hidx, h1]
    · rw [packIdx, if_neg hb, ih]
      by_cases hidx : idx = n
      · subst hidx
        simp [Bool.eq_false_iff.mpr hb]
      · have h1 : decide (idx < n + 1) = decide (idx < n) := by
          simp only [decide_eq_decide]; omega
        simp [h1]

/-- Bit-level characterisation of `ImgToBytes` under the byte-alignment
precondition: the buffer holds exactly one bit per pixel, at flat index
`idx = col*y + row`, and the bit is the pixel's black test. -/
lemma imgToBytes_testBit (x y : Nat) (px : Nat → Nat → Nat × Nat × Nat)
    (h8 : y % 8 = 0) (idx : Nat) :
    bufTestBit (ImgToBytes x y px) idx =
      (decide (idx < x * y) && isBlack px (idx / y) (idx % y)) := by
  rw [ImgToBytes_eq_flat, bufTestBit_foldl_range]
  have hbase : bufTestBit (List.replicate (x * y / 8) 0) idx = false := by
    unfold bufTestBit
    rw [getD_replicate_zero]
    exact Nat.zero_testBit _
  rw [hbase, Bool.false_or, List.length_replicate]
  by_cases hlt : idx < x * y
  · have hdvd : (8 : Nat) ∣ x * y := (Nat.dvd_of_mod_eq_zero h8).mul_left x
    have : idx / 8 < x * y / 8 := Nat.div_lt_div_of_lt_of_dvd hdvd hlt
    simp [hlt, this]
  · simp [hlt]

lemma getD_orBit_lt (buf : List Nat) (k j : Nat)
    (h : ∀ j, buf.getD j 0 < 256) : (orBit buf k).getD j 0 < 256 := by
  by_cases hlen : k / 8 < buf.length
  · by_cases hj : k / 8 = j
    · subst hj
      unfold orBit
      rw [getD_set_self _ _ _ _ hlen, Nat.shiftLeft_eq, one_mul]
      have h1 : buf.getD (k / 8) 0 < 2 ^ 8 := h (k / 8)
      have h2 : (2 : Nat) ^ (7 - k % 8) < 2 ^ 8 :=
        Nat.pow_lt_pow_right (by omega) (by omega)
      exact Nat.or_lt_two_pow h1 h2
    · unfold orBit
      rw [getD_set_ne _ _ _ _ _ hj]
      exact h j
  · unfold orBit
    rw [List.set_eq_of_length_le (Nat.le_of_not_lt hlen)]
    exact h j

lemma foldl_packIdx_getD_lt (y : Nat) (px : Nat → Nat → Nat × Nat × Nat)
    (l : List Nat) : ∀ buf : List Nat, (∀ j, buf.getD j 0 < 256) →
    ∀ j, ((l.foldl (packIdx y px) buf).getD j 0) < 256 := by
  induction l with
  | nil => intro buf h j; exact h j
  | cons b l ih =>
    intro buf h j
    rw [List.foldl_cons]
    refine ih _ (fun j => ?_) j
    unfold packIdx
    split
    · exact getD_orBit_lt buf b j h
    · exact h j

/-- Every byte of the packed buffer is a byte: `< 256`. -/
lemma imgToBytes_getD_lt (x y : Nat) (px : Nat → Nat → Nat × Nat × Nat)
    (j : Nat) : (ImgToBytes x y px).getD j 0 < 256 := by
  rw [ImgToBytes_eq_flat]
  refine foldl_packIdx_getD_lt y px _ _ (fun j => ?_) j
  rw [getD_replicate_zero]
  omega

lemma imgToBytes_length (x y : Nat) (px : Nat → Nat → Nat × Nat × Nat) :
    (ImgToBytes x y px).length = x * y / 8 := by
  rw [ImgToBytes_eq_flat, foldl_packIdx_length, List.length_replicate]

lemma flatIdx_lt (x y col row : Nat) (hc : col < x) (hr : row < y) :
    col * y + row < x * y :=
  calc col * y + row < col * y + y := by omega
  _ = (col + 1) * y := by ring
  _ ≤ x * y := Nat.mul_le_mul_right y hc

lemma flatIdx_div (y col row : Nat) (hr : row < y) : (col * y + row) / y = col := by
  have hy : 0 < y := by omega
  rw [Nat.mul_comm, Nat.mul_add_div hy, Nat.div_eq_of_lt hr, Nat.add_zero]

lemma flatIdx_mod (y col row : Nat) (hr : row < y) : (col * y + row) % y = row := by
  rw [Nat.mul_comm, Nat.mul_add_mod, Nat.mod_eq_of_lt hr]

/-- The packed bit of pixel (column `col`, row `row`) in coordinates. -/
lemma imgToBytes_bit_eq (x y : Nat) (px : Nat → Nat → Nat × Nat × Nat)
    (h8 : y % 8 = 0) (col row : Nat) (hc : col < x) (hr : row < y) :
    bufTestBit (ImgToBytes x y px) (col * y + row) = isBlack px col row := by
  rw [imgToBytes_testBit x y px h8, flatIdx_div y col row hr,
    flatIdx_mod y col row hr, decide_eq_true (flatIdx_lt x y col row hc hr),
    Bool.true_and]

lemma and_shift_ne_zero_iff (n k : Nat) :
    (n &&& (1 <<< k) ≠ 0) ↔ Nat.testBit n k = true := by
  rw [Nat.shiftLeft_eq, one_mul, Nat.and_two_pow]
  cases h : Nat.testBit n k <;> simp [h, Nat.pos_iff_ne_zero]

/-- Go's `strconv.Atoi` digit scan, on the characters after the optional
sign: all must be ASCII digits, most-significant first. -/
def parseDigitsAux : List Char → Nat → Option Nat
  | [], acc => some acc
  | c :: cs, acc =>
    if '0' ≤ c ∧ c ≤ '9' then parseDigitsAux cs (acc * 10 + (c.toNat - 48))
    else none

/-- At least one digit is required (`strconv.Atoi("")` and
`strconv.Atoi("+")` are errors). -/
def parseDigits (cs : List Char) : Option Nat :=
  match cs with
  | [] => none
  | _ => parseDigitsAux cs 0

/-- `strconv.Atoi` (Go): optional `+`/`-` sign, one or more decimal
digits, and a 64-bit range check (out-of-range input is an error). -/
def goAtoi (cs : List Char) : Option Int :=
  match cs with
  | '-' :: rest =>
    match parseDigits rest with
    | none => none
    | some n => if (n : Int) ≤ 2 ^ 63 then some (-(n : Int)) else none
  | '+' :: rest =>
    match parseDigits rest with
    | none => none
    | some n => if (n : Int) < 2 ^ 63 then some (n : Int) else none
  | _ =>
    match parseDigits cs with
    | none => none
    | some n => if (n : Int) < 2 ^ 63 then some (n : Int) else none

/-- `strings.ToLower`, character-wise, for the ASCII range (the claims
only exercise ASCII ratio tokens). -/
def toLowerChar (c : Char) : Char :=
  if 'A' ≤ c ∧ c ≤ 'Z' then Char.ofNat (c.toNat + 32) else c

/-- `strings.Split(s, "x")` for the one-character separator `x`: the
substrings between consecutive occurrences of `x` (empty fields kept). -/
def splitOnX : List Char → List (List Char)
  | [] => [[]]
  | a :: rest =>
    match splitOnX rest with
    | [] => [[]]
    | f :: fs => if a = 'x' then [] :: f :: fs else (a :: f) :: fs

/-- The field list `ParseRatio` works on: lower the token, split on
`x`. -/
def ratioFields (rstr : String) : List (List Char) :=
  splitOnX (rstr.toList.map toLowerChar)

/-- `ParseRatio` (main.go lines 250-265).  The source lowers the string,
splits on `"x"`, requires exactly two fields, and then — by the
copy-paste defect on line 260 — parses BOTH coordinates from
`pixels[0]`; the second field is never parsed. -/
def ParseRatio (rstr : String) : Except String (Int × Int) :=
  match ratioFields rstr with
  | [p0, _p1] =>
    match goAtoi p0 with
    | none => Except.error "error: could not parse x coordinate count"
    | some xv =>
      match goAtoi p0 with
      | none => Except.error "error: could not parse y coordinate count"
      | some yv => Except.ok (xv, yv)
  | _ => Except.error "invalid ratio string provided"

/-- Result of the ratio `switch` in `main` (main.go lines 71-99):
either resolved dimensions, or an exit with status 1. -/
inductive RatioResult where
  | ok (x y : Int)
  | exitErr
  deriving DecidableEq

/-- The ratio `switch` of `main` (main.go lines 71-99): presets
`"profile"` and `"splash"`, the empty string exits via `Usage`, and any
other token is parsed by `ParseRatio`; in that branch only, a height not
divisible by 8 exits with status 1.  (Go's `%` and Lean's `Int.emod`
agree on the `= 0` test used here.) -/
def resolveRatio (ratio : String) : RatioResult :=
  if ratio = "profile" then RatioResult.ok 120 128
  else if ratio = "splash" then RatioResult.ok 246 128
  else if ratio = "" then RatioResult.exitErr
  else
    match ParseRatio ratio with
    | Except.error _ => RatioResult.exitErr
    | Except.ok (xv, yv) =>
      if yv % 8 ≠ 0 then RatioResult.exitErr else RatioResult.ok xv yv

/-- The same `switch`, without the divisible-by-8 check: the dimensions
the ratio token resolves to, when it resolves at all. -/
def rawResolve (ratio : String) : Option (Int × Int) :=
  if ratio = "profile" then some (120, 128)
  else if ratio = "splash" then some (246, 128)
  else if ratio = "" then none
  else
    match ParseRatio ratio with
    | Except.error _ => none
    | Except.ok p => some p

/-- An output action of `main`: the generated-source file (`rice`), the
raw binary file (`bin`), or the base64 line on standard output. -/
inductive Emit where
  | goFile (filename varname : String) (bits : List Nat)
  | binFile (filename : String) (bits : List Nat)
  | base64Out (bits : List Nat)
  deriving DecidableEq

/-- Observable trace of one run of `main` after the input image is
loaded: whether the packer ran (and its buffer), the emitted outputs,
and whether the process reached the end without `os.Exit(1)` /
`log.Fatalf`.  I/O write failures (which would also be fatal) are not
modelled. -/
structure RunTrace where
  packed : Option (List Nat)
  emits : List Emit
  exitZero : Bool
  deriving DecidableEq

/-- `main` (main.go lines 70-124) from the ratio `switch` on: resolve
the ratio (exiting on failure), pack with `ImgToBytes`, then dispatch on
`outmode`; an unrecognized mode prints usage and exits 1 without writing
anything.  Dimensions are clamped to `Nat` (`Int.toNat`); no claim
reaches the packer with a negative dimension, where Go's `make` would
panic. -/
def mainRun (ratio outMode : String) (px : Nat → Nat → Nat × Nat × Nat) : RunTrace :=
  match resolveRatio ratio with
  | RatioResult.exitErr => ⟨none, [], false⟩
  | RatioResult.ok xv yv =>
    let imgBits := ImgToBytes xv.toNat yv.toNat px
    if outMode = "rice" then
      ⟨some imgBits, [Emit.goFile (ratio ++ "-generated.go") ratio imgBits], true⟩
    else if outMode = "bin" then
      ⟨some imgBits, [Emit.binFile (ratio ++ ".bin") imgBits], true⟩
    else if outMode = "base64" then
      ⟨some imgBits, [Emit.base64Out imgBits], true⟩
    else if outMode = "none" then
      ⟨some imgBits, [], true⟩
    else
      ⟨some imgBits, [], false⟩

lemma foldl_fixed {α β : Type} (f : α → β → α) (l : List β) (a : α)
    (h : ∀ b ∈ l, f a b = a) : l.foldl f a = a := by
  induction l with
  | nil => rfl
  | cons b l ih =>
    rw [List.foldl_cons, h b (by simp)]
    exact ih (fun c hc => h c (by simp [hc]))

/-- A concrete 2x8 pixel grid with one black pixel, at column 0 row 2. -/
def pxW : Nat → Nat → Nat × Nat × Nat :=
  fun i j => if i = 0 ∧ j = 2 then (0, 0, 0) else (1, 0, 0)

/-- A concrete all-white pixel grid. -/
def pxWhite : Nat → Nat → Nat × Nat × Nat := fun _ _ => (255, 255, 255)

/-- Claim C1: for a 2-colour grid of width `x` and height `y` with
`y % 8 = 0`, `ImgToBytes` sets, for each black pixel (channel sum zero)
at column `col` and row `row`, exactly bit `7 - idx % 8` of byte
`idx / 8` with `idx = col*y + row`, and no other bit of the buffer is
set. -/
theorem imgToBytes_sets_exactly_black_bits (x y : Nat)
    (px : Nat → Nat → Nat × Nat × Nat) (h8 : y % 8 = 0) :
    (∀ col row, col < x → row < y →
      Nat.testBit ((ImgToBytes x y px).getD ((col * y + row) / 8) 0)
        (7 - (col * y + row) % 8) = isBlack px col row) ∧
    (∀ b k, Nat.testBit ((ImgToBytes x y px).getD b 0) k = true →
      ∃ col row, col < x ∧ row < y ∧ isBlack px col row = true ∧
        b = (col * y + row) / 8 ∧ k = 7 - (col * y + row) % 8) := by
  constructor
  · intro col row hc hr
    exact imgToBytes_bit_eq x y px h8 col row hc hr
  · intro b k hbit
    have h256 : (ImgToBytes x y px).getD b 0 < 2 ^ 8 :=
      lt_of_lt_of_le (imgToBytes_getD_lt x y px b) (by norm_num)
    have hk : k < 8 := by
      by_contra hk8
      have hle : (2 : Nat) ^ 8 ≤ 2 ^ k := Nat.pow_le_pow_right (by norm_num) (by omega)
      have hfalse : Nat.testBit ((ImgToBytes x y px).getD b 0) k = false :=
        Nat.testBit_lt_two_pow (lt_of_lt_of_le h256 hle)
      rw [hfalse] at hbit
      exact Bool.false_ne_true hbit
    obtain ⟨idx, hidxdef⟩ : ∃ idx, idx = 8 * b + (7 - k) := ⟨_, rfl⟩
    have hdiv : idx / 8 = b := by omega
    have hmod : 7 - idx % 8 = k := by omega
    have hbb : bufTestBit (ImgToBytes x y px) idx = true := by
      unfold bufTestBit
      rw [hdiv, hmod]
      exact hbit
    rw [imgToBytes_testBit x y px h8] at hbb
    simp only [Bool.and_eq_true, decide_eq_true_eq] at hbb
    obtain ⟨hlt, hblk⟩ := hbb
    have hxy : 0 < x * y := by omega
    have hy : 0 < y := by
      rcases Nat.eq_zero_or_pos y with h0 | h
      · rw [h0, Nat.mul_zero] at hxy; omega
      · exact h
    have hidx2 : idx / y * y + idx % y = idx := by
      rw [Nat.mul_comm]
      exact Nat.div_add_mod idx y
    refine ⟨idx / y, idx % y, (Nat.div_lt_iff_lt_mul hy).mpr hlt,
      Nat.mod_lt idx hy, hblk, ?_, ?_⟩
    · rw [hidx2]
      exact hdiv.symm
    · rw [hidx2]
      exact hmod.symm

/-- Witness for C1 at a concrete 2x8 grid. -/
theorem imgToBytes_sets_exactly_black_bits_witness :
    Nat.testBit ((ImgToBytes 2 8 pxW).getD ((0 * 8 + 2) / 8) 0)
      (7 - (0 * 8 + 2) % 8) = isBlack pxW 0 2 :=
  (imgToBytes_sets_exactly_black_bits 2 8 pxW (by decide)).1 0 2 (by decide) (by decide)

/-- Claim C2: for every target `(x, y)` with `y % 8 = 0`, the buffer
returned by `ImgToBytes` has length exactly `x*y/8`. -/
theorem imgToBytes_output_length (x y : Nat) (px : Nat → Nat → Nat × Nat × Nat)
    (h8 : y % 8 = 0) : (ImgToBytes x y px).length = x * y / 8 :=
  imgToBytes_length x y px

/-- Witness for C2. -/
theorem imgToBytes_output_length_witness : (ImgToBytes 2 8 pxW).length = 2 * 8 / 8 :=
  imgToBytes_output_length 2 8 pxW (by decide)

/-- Claim C3: the preview's bit extraction is a round-trip of the packer:
the character `PrintImg` prints at row `i`, column `j` is `*` exactly
when the pixel the packer stored for column `j`, row `i` was black. -/
theorem printImg_roundtrip (x y : Nat) (px : Nat → Nat → Nat × Nat × Nat)
    (h8 : y % 8 = 0) (i j : Nat) (hi : i < y) (hj : j < x) :
    ((PrintImg x y (ImgToBytes x y px)).getD i []).getD j ' ' =
      (if isBlack px j i then '*' else ' ') := by
  have hrow : (PrintImg x y (ImgToBytes x y px)).getD i [] =
      (List.range x).map (fun j =>
        if (ImgToBytes x y px).getD ((j * y + i) / 8) 0 &&&
            (1 <<< (7 - (j * y + i) % 8)) ≠ 0
        then '*' else ' ') := by
    unfold PrintImg
    rw [List.getD_eq_getElem?_getD, List.getElem?_map, List.getElem?_range hi]
    rfl
  rw [hrow, List.getD_eq_getElem?_getD, List.getElem?_map, List.getElem?_range hj]
  simp only [Option.map_some', Option.getD_some]
  have hb2 : Nat.testBit ((ImgToBytes x y px).getD ((j * y + i) / 8) 0)
      (7 - (j * y + i) % 8) = isBlack px j i :=
    imgToBytes_bit_eq x y px h8 j i hj hi
  simp only [ne_eq, and_shift_ne_zero_iff, hb2]

/-- Witness for C3: the black pixel of `pxW` at column 0, row 2 is the
`*` printed at row 2, column 0. -/
theorem printImg_roundtrip_witness :
    ((PrintImg 2 8 (ImgToBytes 2 8 pxW)).getD 2 []).getD 0 ' ' =
      (if isBlack pxW 0 2 then '*' else ' ') :=
  printImg_roundtrip 2 8 pxW (by decide) 2 0 (by decide) (by decide)

/-- Claim C4: `ParseRatio "64x32"` returns `(64, 64)` — both dimensions
come from the first field, preserving the copy-paste defect. -/
theorem parseRatio_copy_paste_defect : ParseRatio "64x32" = Except.ok (64, 64) := by
  decide

/-- Counterexample for C5 as stated: the second field of `"64xabc"` is
not a valid integer, yet `ParseRatio` succeeds, because the source never
parses the second field. -/
theorem parseRatio_second_field_ignored :
    ParseRatio "64xabc" = Except.ok (64, 64) ∧ goAtoi "abc".toList = none := by
  decide

/-- Claim C5 (amended): `ParseRatio` returns an error exactly when the
lowered token does not split on `x` into exactly two fields, or when the
FIRST field is not a valid decimal integer (the second field is never
parsed); in particular `"abc"` and `"64"` both fail. -/
theorem parseRatio_error_iff :
    (∀ rstr : String,
      (∃ e, ParseRatio rstr = Except.error e) ↔
        ((ratioFields rstr).length ≠ 2 ∨
          goAtoi ((ratioFields rstr).getD 0 []) = none)) ∧
    (∃ e, ParseRatio "abc" = Except.error e) ∧
    (∃ e, ParseRatio "64" = Except.error e) := by
  refine ⟨fun rstr => ?_, ⟨"invalid ratio string provided", by decide⟩,
    ⟨"invalid ratio string provided", by decide⟩⟩
  cases hsplit : ratioFields rstr with
  | nil => simp [ParseRatio, hsplit]
  | cons p0 tail =>
    cases tail with
    | nil => simp [ParseRatio, hsplit]
    | cons p1 rest =>
      cases rest with
      | nil =>
        cases hA : goAtoi p0 with
        | none => simp [ParseRatio, hsplit, hA]
        | some v => simp [ParseRatio, hsplit, hA]
      | cons q qs => simp [ParseRatio, hsplit]

/-- Witness for C5 (amended) at the concrete token `"64"`. -/
theorem parseRatio_error_iff_witness :
    (∃ e, ParseRatio "64" = Except.error e) ↔
      ((ratioFields "64").length ≠ 2 ∨
        goAtoi ((ratioFields "64").getD 0 []) = none) :=
  parseRatio_error_iff.1 "64"

/-- Claim C6: the named presets resolve to exactly (120, 128) for
`"profile"` and (246, 128) for `"splash"`. -/
theorem presets_resolve :
    resolveRatio "profile" = RatioResult.ok 120 128 ∧
    resolveRatio "splash" = RatioResult.ok 246 128 := by
  decide

/-- Claim C7: with dithering disabled a pixel is packed black iff its
channel sum is zero; an all-white input of target size `x*y` packs to
the all-zero buffer of length `x*y/8`. -/
theorem no_dither_black_iff_channel_sum_zero (x y : Nat)
    (px : Nat → Nat → Nat × Nat × Nat) (h8 : y % 8 = 0) :
    (∀ col row, col < x → row < y →
      (bufTestBit (ImgToBytes x y px) (col * y + row) = true ↔
        (px col row).1 + (px col row).2.1 + (px col row).2.2 = 0)) ∧
    ((∀ col row, col < x → row < y →
        (px col row).1 + (px col row).2.1 + (px col row).2.2 ≠ 0) →
      ImgToBytes x y px = List.replicate (x * y / 8) 0) := by
  constructor
  · intro col row hc hr
    rw [imgToBytes_bit_eq x y px h8 col row hc hr]
    unfold isBlack
    exact decide_eq_true_iff
  · intro hwhite
    unfold ImgToBytes
    apply foldl_fixed
    intro i hi
    apply foldl_fixed
    intro j hj
    unfold packStep
    rw [if_neg]
    unfold isBlack
    simp only [decide_eq_true_eq]
    exact hwhite i j (List.mem_range.mp hi) (List.mem_range.mp hj)

/-- Witness for C7: an all-white 2x8 input packs to two zero bytes. -/
theorem no_dither_black_iff_channel_sum_zero_witness :
    ImgToBytes 2 8 pxWhite = List.replicate (2 * 8 / 8) 0 :=
  (no_dither_black_iff_channel_sum_zero 2 8 pxWhite (by decide)).2
    (fun col row h1 h2 => by simp [pxWhite])

/-- Claim C8: when the ratio token resolves to a height not divisible by
8 (only possible through the `ParseRatio` branch), the run exits with
status 1 before the packer or any emitter runs. -/
theorem bad_height_exits_before_packing (ratio outMode : String)
    (px : Nat → Nat → Nat × Nat × Nat) (xv yv : Int)
    (hres : rawResolve ratio = some (xv, yv)) (hy : yv % 8 ≠ 0) :
    mainRun ratio outMode px = ⟨none, [], false⟩ := by
  by_cases h1 : ratio = "profile"
  · subst h1
    have h0 : rawResolve "profile" = some (120, 128) := by decide
    rw [h0] at hres
    simp only [Option.some.injEq, Prod.mk.injEq] at hres
    omega
  · by_cases h2 : ratio = "splash"
    · subst h2
      have h0 : rawResolve "splash" = some (246, 128) := by decide
      rw [h0] at hres
      simp only [Option.some.injEq, Prod.mk.injEq] at hres
      omega
    · by_cases h3 : ratio = ""
      · subst h3
        have h0 : rawResolve "" = none := by decide
        rw [h0] at hres
        exact absurd hres (by simp)
      · have hresolve : resolveRatio ratio = RatioResult.exitErr := by
          unfold rawResolve at hres
          rw [if_neg h1, if_neg h2, if_neg h3] at hres
          unfold resolveRatio
          rw [if_neg h1, if_neg h2, if_neg h3]
          cases hPR : ParseRatio ratio with
          | error e => rfl
          | ok p =>
            obtain ⟨pa, pb⟩ := p
            rw [hPR] at hres
            simp only [Option.some.injEq, Prod.mk.injEq] at hres
            obtain ⟨hxa, hyb⟩ := hres
            subst hyb
            show (if pb % 8 ≠ 0 then RatioResult.exitErr else RatioResult.ok pa pb) =
              RatioResult.exitErr
            rw [if_pos hy]
        unfold mainRun
        rw [hresolve]

/-- Witness for C8: `"127x8"` resolves (through the defect) to height
127, and the run is an early exit. -/
theorem bad_height_exits_before_packing_witness :
    mainRun "127x8" "bin" pxW = ⟨none, [], false⟩ :=
  bad_height_exits_before_packing "127x8" "bin" pxW 127 127 (by decide) (by decide)

/-- Claim C9: with valid dimensions but an `outmode` other than `rice`,
`bin`, `base64` and `none`, the run emits nothing (in particular writes
no file) and exits with non-zero status. -/
theorem bad_outmode_no_writes (ratio outMode : String)
    (px : Nat → Nat → Nat × Nat × Nat) (xv yv : Int)
    (hres : resolveRatio ratio = RatioResult.ok xv yv)
    (h1 : outMode ≠ "rice") (h2 : outMode ≠ "bin")
    (h3 : outMode ≠ "base64") (h4 : outMode ≠ "none") :
    (mainRun ratio outMode px).emits = [] ∧
    (mainRun ratio outMode px).exitZero = false := by
  unfold mainRun
  rw [hres]
  simp [h1, h2, h3, h4]

/-- Witness for C9 at ratio `"8x8"` and outmode `"xyz"`. -/
theorem bad_outmode_no_writes_witness :
    (mainRun "8x8" "xyz" pxW).emits = [] ∧
    (mainRun "8x8" "xyz" pxW).exitZero = false :=
  bad_outmode_no_writes "8x8" "xyz" pxW 8 8 (by decide) (by decide) (by decide)
    (by decide) (by decide)

/-- Claim C10: under `y % 8 = 0`, every byte index the packing loop and
the preview's extraction compute — `(col*y + row) / 8` for `col < x`,
`row < y` — is strictly below the buffer length `x*y/8`, so all buffer
accesses are in bounds. -/
theorem pack_print_index_in_bounds (x y : Nat)
    (px : Nat → Nat → Nat × Nat × Nat) (col row : Nat) (h8 : y % 8 = 0)
    (hc : col < x) (hr : row < y) :
    (col * y + row) / 8 < (ImgToBytes x y px).length ∧
    (col * y + row) / 8 < x * y / 8 := by
  have hdvd : (8 : Nat) ∣ x * y := (Nat.dvd_of_mod_eq_zero h8).mul_left x
  have hlt := Nat.div_lt_div_of_lt_of_dvd hdvd (flatIdx_lt x y col row hc hr)
  exact ⟨by rw [imgToBytes_length]; exact hlt, hlt⟩

/-- Witness for C10. -/
theorem pack_print_index_in_bounds_witness :
    (1 * 8 + 5) / 8 < (ImgToBytes 2 8 pxW).length ∧
    (1 * 8 + 5) / 8 < 2 * 8 / 8 :=
  pack_print_index_in_bounds 2 8 pxW 1 5 (by decide) (by decide) (by decide)

end Badger
